import Mathlib

/-!
Verification development for the local-file-sync repository.

The Go sources are shallowly embedded: pure fragments become Lean
functions, filesystem access becomes explicit oracle structures
(`OracleFS`, `UploadFS`, ...), and machine integers (int64 sizes,
nanosecond timestamps) are modelled as `Int`.  Paths are Unix path
strings; the relevant functions of Go's `path/filepath` package
(`Clean`, `Join`, `Base`, `Dir`, `Ext`) are embedded over `List Char`.
-/

namespace LocalFileSync

/-! ## Go `strings` helpers (ASCII case folding)

`strings.ToUpper` is embedded for the ASCII range, which is all the
scanner's `.RDY` comparison can ever distinguish. -/

def upChar (c : Char) : Char :=
  match c with
  | 'a' => 'A' | 'b' => 'B' | 'c' => 'C' | 'd' => 'D' | 'e' => 'E'
  | 'f' => 'F' | 'g' => 'G' | 'h' => 'H' | 'i' => 'I' | 'j' => 'J'
  | 'k' => 'K' | 'l' => 'L' | 'm' => 'M' | 'n' => 'N' | 'o' => 'O'
  | 'p' => 'P' | 'q' => 'Q' | 'r' => 'R' | 's' => 'S' | 't' => 'T'
  | 'u' => 'U' | 'v' => 'V' | 'w' => 'W' | 'x' => 'X' | 'y' => 'Y'
  | 'z' => 'Z'
  | other => other

def goToUpper (s : String) : String := ⟨s.data.map upChar⟩

/-- Embeds `strings.HasSuffix(strings.ToUpper(name), ".RDY")`
(scanner.go line 58/80, gcs.go line 112). -/
def hasSuffixRDY (name : String) : Bool :=
  ".RDY".data.isSuffixOf (goToUpper name).data

/-- Embeds `strings.TrimSuffix(s, suf)`. -/
def goTrimSuffix (s suf : String) : String :=
  if suf.data.isSuffixOf s.data then ⟨s.data.take (s.data.length - suf.data.length)⟩ else s

/-! ## `path/filepath` (Unix separator)

`pathClean` implements Go's `path.Clean` by splitting on the separator
and normalising the component list, which is extensionally the same
lexical algorithm. -/

def dotdot : List Char := ['.', '.']

/-- Split a character list on the separator. `splitSlash "a/b" = [[a],[b]]`. -/
def splitSlash : List Char → List (List Char)
  | [] => [[]]
  | c :: rest =>
    if c = '/' then [] :: splitSlash rest
    else
      match splitSlash rest with
      | [] => [[c]]
      | g :: gs => (c :: g) :: gs

/-- Normalise a component list: drop empty and `.` components, resolve `..`.
`acc` holds the output so far, reversed. -/
def cleanFold (rooted : Bool) : List (List Char) → List (List Char) → List (List Char)
  | acc, [] => acc.reverse
  | acc, c :: rest =>
    if c = [] ∨ c = ['.'] then cleanFold rooted acc rest
    else if c = dotdot then
      match acc with
      | [] => if rooted then cleanFold rooted [] rest else cleanFold rooted [dotdot] rest
      | x :: xs => if x = dotdot then cleanFold rooted (dotdot :: x :: xs) rest
                   else cleanFold rooted xs rest
    else cleanFold rooted (c :: acc) rest

/-- Interleave components with the separator. -/
def renderComps : List (List Char) → List Char
  | [] => []
  | [c] => c
  | c :: rest => c ++ '/' :: renderComps rest

/-- Embeds Go `filepath.Clean` (Unix). -/
def pathClean (s : String) : String :=
  match s.data with
  | [] => "."
  | c :: cs =>
    let rooted : Bool := c = '/'
    let comps := cleanFold rooted [] (splitSlash (c :: cs))
    let out := renderComps comps
    if rooted then ⟨'/' :: out⟩
    else if out = [] then "." else ⟨out⟩

/-- Embeds Go `filepath.Base` (Unix). -/
def pathBase (s : String) : String :=
  if s.data.isEmpty then "."
  else
    let rev := s.data.reverse.dropWhile (fun c => c = '/')
    if rev.isEmpty then "/"
    else ⟨(rev.takeWhile (fun c => ¬ c = '/')).reverse⟩

/-- Embeds Go `filepath.Dir` (Unix): `Clean` of everything up to and
including the last separator. -/
def pathDir (p : String) : String :=
  pathClean ⟨(p.data.reverse.dropWhile (fun c => ¬ c = '/')).reverse⟩

/-- Reversed final path element up to and including its last dot. -/
def takeUpToDot : List Char → Option (List Char)
  | [] => none
  | c :: rest => if c = '.' then some [c] else (takeUpToDot rest).map (fun l => c :: l)

/-- Embeds Go `filepath.Ext`: suffix of the final element starting at its
last dot, empty if there is none. -/
def pathExt (s : String) : String :=
  match takeUpToDot (s.data.reverse.takeWhile (fun c => ¬ c = '/')) with
  | none => ""
  | some l => ⟨l.reverse⟩

/-- Embeds Go `filepath.Join(a, b)` (Unix): concatenate the non-empty
elements with the separator, then `Clean`. -/
def goJoin (a b : String) : String :=
  if ¬ a = "" then pathClean (a ++ "/" ++ b)
  else if ¬ b = "" then pathClean b
  else ""

/-- A normalised path component: non-empty, not `.`, separator-free. -/
def goodComp (c : List Char) : Prop := ¬ c = [] ∧ ¬ c = ['.'] ∧ '/' ∉ c

/-- No component of the list is `..`. -/
def noDD (l : List (List Char)) : Prop := ∀ c ∈ l, ¬ c = dotdot

/-! ## Scanner data model (scanner.go) -/

deriving instance DecidableEq for Except

/-- Embeds `scanner.FileEntry`; `ModTime` is nanoseconds as `Int`, with
`0` standing for Go's zero `time.Time`. -/
structure FileEntry where
  name : String
  size : Int
  modTime : Int
  path : String
deriving DecidableEq

/-- Embeds `scanner.Match`. -/
structure Match where
  readyFile : String
  folder : String
  missingFolder : Bool
  folderEntries : List FileEntry
deriving DecidableEq

/-- Embeds `scanner.Options`. -/
structure Options where
  recursive : Bool
  followSymlinks : Bool
deriving DecidableEq

/-- Result of `os.Stat`/`os.Lstat`: mode bits and metadata; `none` at the
oracle means the call returned an error. -/
structure GoFileInfo where
  isDir : Bool
  isSymlink : Bool
  size : Int
  modTimeNs : Int
deriving DecidableEq

/-- One entry as returned by the raw directory enumeration; `info = none`
models `e.Info()` failing. -/
structure GoDirEntry where
  name : String
  isDir : Bool
  isSymlink : Bool
  info : Option GoFileInfo
deriving DecidableEq

/-- Filesystem oracle: `stat`/`lstat` answer `os.Stat`/`os.Lstat`;
`rawReadDir` is the raw (unsorted) directory enumeration, `none` meaning
the listing call fails. -/
structure OracleFS where
  stat : String → Option GoFileInfo
  lstat : String → Option GoFileInfo
  rawReadDir : String → Option (List GoDirEntry)

/-- Lexicographic byte-wise comparison, as Go compares strings. -/
def listLeb : List Char → List Char → Bool
  | [], _ => true
  | _ :: _, [] => false
  | a :: as, b :: bs => if a < b then true else if b < a then false else listLeb as bs

/-- Go's `a <= b` on strings. -/
def goStrLe (a b : String) : Prop := listLeb a.data b.data = true

instance : DecidableRel goStrLe := fun a b => by unfold goStrLe; infer_instance

/-- `sort.Strings` (and the sorted order used throughout) is modelled by
`List.insertionSort`, which produces the same unique sorted result. -/
def sortStrings (l : List String) : List String :=
  l.insertionSort goStrLe

def entryLe (a b : GoDirEntry) : Prop := goStrLe a.name b.name

instance : DecidableRel entryLe := fun a b => by unfold entryLe; infer_instance

def sortDirEntries (l : List GoDirEntry) : List GoDirEntry :=
  l.insertionSort entryLe

def feLe (a b : FileEntry) : Prop := goStrLe a.name b.name

instance : DecidableRel feLe := fun a b => by unfold feLe; infer_instance

/-- Embeds the `sort.Slice(m.FolderEntries, ...)` call of scanner.go
line 115 (compare by `Name` ascending). -/
def sortFileEntries (l : List FileEntry) : List FileEntry :=
  l.insertionSort feLe

/-- Embeds `os.ReadDir`, which returns the raw enumeration sorted by
filename. -/
def osReadDir (fs : OracleFS) (p : String) : Option (List GoDirEntry) :=
  (fs.rawReadDir p).map sortDirEntries

/-- Two oracles describe the same tree up to the (unspecified) order in
which the raw enumeration returns each directory's entries. -/
def enumEquiv (fs fs2 : OracleFS) : Prop :=
  (∀ p, fs.stat p = fs2.stat p) ∧ (∀ p, fs.lstat p = fs2.lstat p) ∧
  (∀ p, (fs.rawReadDir p = none ∧ fs2.rawReadDir p = none) ∨
    ∃ l l2, fs.rawReadDir p = some l ∧ fs2.rawReadDir p = some l2 ∧ l.Perm l2)

/-- Real directories never list two entries with the same name. -/
def validFS (fs : OracleFS) : Prop :=
  ∀ p l, fs.rawReadDir p = some l → (l.map GoDirEntry.name).Nodup

/-- The candidate companion folder computed for a marker path
(scanner.go lines 90-92). -/
def candidateDirOf (rdy : String) : String :=
  let base := pathBase rdy
  let nameNoExt := goTrimSuffix base (pathExt base)
  goJoin (pathDir rdy) nameNoExt

/-- Converts one listed child into a `FileEntry` (scanner.go lines
102-114): a failing `e.Info()` degrades to zero-valued metadata. -/
def entryToFileEntry (candidateDir : String) (e : GoDirEntry) : FileEntry :=
  match e.info with
  | some fi => { name := e.name, size := fi.size, modTime := fi.modTimeNs,
                 path := goJoin candidateDir e.name }
  | none => { name := e.name, size := 0, modTime := 0, path := goJoin candidateDir e.name }

/-- Embeds the per-marker loop body of `Scan` (scanner.go lines 89-121). -/
def buildMatch (fs : OracleFS) (rdy : String) : Match :=
  let candidateDir := candidateDirOf rdy
  match fs.stat candidateDir with
  | some st =>
    if st.isDir then
      match osReadDir fs candidateDir with
      | none =>
        -- listing failed after `m.Folder` was already assigned
        { readyFile := rdy, folder := candidateDir, missingFolder := true, folderEntries := [] }
      | some entries =>
        { readyFile := rdy, folder := candidateDir, missingFolder := false,
          folderEntries := sortFileEntries (entries.map (entryToFileEntry candidateDir)) }
    else { readyFile := rdy, folder := "", missingFolder := true, folderEntries := [] }
  | none => { readyFile := rdy, folder := "", missingFolder := true, folderEntries := [] }

/-- One step of `filepath.WalkDir`'s child loop: recurse into each entry
in order, aborting on the first error. -/
def walkChildren (step : String → GoDirEntry → Except Unit (List String))
    (path : String) : List GoDirEntry → Except Unit (List String)
  | [] => .ok []
  | d1 :: rest =>
    match step (goJoin path d1.name) d1 with
    | .error e => .error e
    | .ok sub =>
      match walkChildren step path rest with
      | .error e => .error e
      | .ok more => .ok (sub ++ more)

/-- Embeds `filepath.WalkDir` specialised to the walk function of
scanner.go lines 53-67: collect non-directory entries whose upper-cased
name ends in `.RDY`; prune symlinked directories unless
`followSymlinks`; abort on the first walk error.  `fuel` bounds the
recursion depth (real directory trees are finite); exhaustion counts as
a walk error. -/
def walkDirNode (fs : OracleFS) (opts : Options) :
    Nat → String → GoDirEntry → Except Unit (List String)
  | fuel, path, d =>
    if d.isDir = false then
      .ok (if hasSuffixRDY d.name then [path] else [])
    else if opts.followSymlinks = false ∧ d.isSymlink = true then
      .ok []
    else
      match osReadDir fs path with
      | none => .error ()
      | some dirs =>
        match fuel with
        | 0 => .error ()
        | fuel' + 1 => walkChildren (walkDirNode fs opts fuel') path dirs

/-- Embeds the top of `filepath.WalkDir`: `Lstat` the root and walk it. -/
def goWalkDirTop (fs : OracleFS) (opts : Options) (fuel : Nat) (root : String) :
    Except Unit (List String) :=
  match fs.lstat root with
  | none => .error ()
  | some info =>
    walkDirNode fs opts fuel root
      { name := pathBase root, isDir := info.isDir, isSymlink := info.isSymlink,
        info := some info }

/-- Embeds the non-recursive collection branch (scanner.go lines 72-83). -/
def collectNonRecursive (fs : OracleFS) (root : String) : Except Unit (List String) :=
  match osReadDir fs root with
  | none => .error ()
  | some entries =>
    .ok ((entries.filter (fun e => e.isDir = false && hasSuffixRDY e.name)).map
      (fun e => goJoin root e.name))

/-- The marker-collection phase of `Scan` (lines 52-84). -/
def collectRdy (fs : OracleFS) (opts : Options) (fuel : Nat) (root : String) :
    Except Unit (List String) :=
  if opts.recursive then goWalkDirTop fs opts fuel root
  else collectNonRecursive fs root

inductive ScanError where
  | rootStat
  | rootNotDir
  | rootReadDir
  | walk
deriving DecidableEq

/-- Embeds `scanner.Scan` (scanner.go lines 41-124). -/
def Scan (fs : OracleFS) (opts : Options) (fuel : Nat) (root : String) :
    Except ScanError (List Match) :=
  match fs.stat root with
  | none => .error .rootStat
  | some info =>
    if info.isDir = false then .error .rootNotDir
    else if opts.recursive then
      match goWalkDirTop fs opts fuel root with
      | .error _ => .error .walk
      | .ok rdyFiles => .ok ((sortStrings rdyFiles).map (buildMatch fs))
    else
      match collectNonRecursive fs root with
      | .error _ => .error .rootReadDir
      | .ok rdyFiles => .ok ((sortStrings rdyFiles).map (buildMatch fs))

/-! ## Process lock (internal/app, `acquireLockWith`) -/

/-- Outcome of `os.OpenFile(path, O_CREATE|O_EXCL|O_WRONLY, 0o600)`. -/
inductive CreateRes where
  | ok
  | errExist
  | errOther
deriving DecidableEq

/-- Environment for one acquisition attempt: what the filesystem calls
would answer, plus the injected clock. -/
structure LockEnv where
  firstCreate : CreateRes
  statModTime : Option Int
  retryCreateOk : Bool
  nowNs : Int
deriving DecidableEq

/-- Observable outcome of `acquireLockWith`: the returned pair plus a
trace of the staleness actions taken. -/
structure LockOutcome where
  acquired : Bool
  isErr : Bool
  removedStale : Bool
  retriedCreate : Nat
deriving DecidableEq

/-- Embeds `acquireLockWith` (lock file logic, TTL and clock injected).
`ttl` and times are nanoseconds as `Int`; `now().Sub(info.ModTime()) > ttl`
becomes `nowNs - mt > ttl`. -/
def acquireLockWith (env : LockEnv) (ttl : Int) : LockOutcome :=
  match env.firstCreate with
  | .ok => { acquired := true, isErr := false, removedStale := false, retriedCreate := 0 }
  | .errOther => { acquired := false, isErr := true, removedStale := false, retriedCreate := 0 }
  | .errExist =>
    match env.statModTime with
    | none => { acquired := false, isErr := false, removedStale := false, retriedCreate := 0 }
    | some mt =>
      if env.nowNs - mt > ttl then
        if env.retryCreateOk then
          { acquired := true, isErr := false, removedStale := true, retriedCreate := 1 }
        else
          { acquired := false, isErr := false, removedStale := true, retriedCreate := 1 }
      else
        { acquired := false, isErr := false, removedStale := false, retriedCreate := 0 }

/-! ## Dedup state store (internal/state) -/

/-- Embeds `state.Store`.  The Go map is modelled as a lookup function;
the mutex only guards the in-memory map and has no sequential effect. -/
structure Store where
  path : String
  data : String → Option Int
  lastRun : Int
  dirty : Bool

/-- Embeds `state.New`. -/
def Store.new (path : String) : Store :=
  { path := path, data := fun _ => none, lastRun := 0, dirty := false }

/-- Embeds `state.diskState` after `json.Unmarshal`: Go zeroes absent
fields, so `version` is an `Int` and `files` is `none` exactly when the
JSON had no (or a null) `files` object. -/
structure GoDiskState where
  version : Int
  lastRun : Int
  files : Option (List (String × Int))
deriving DecidableEq

/-- Outcome of `os.ReadFile` followed by `json.Unmarshal`:
`.ok none` models content that fails to unmarshal. -/
inductive ReadResult where
  | notExist
  | readErr
  | ok (ds : Option GoDiskState)
deriving DecidableEq

/-- Embeds `maps.Copy(s.Data, ds.Files)`: entries of `files` overwrite. -/
def mergeFiles (data : String → Option Int) (files : List (String × Int)) :
    String → Option Int :=
  files.foldl (fun acc kv => fun q => if q = kv.1 then some kv.2 else acc q) data

/-- Embeds `Store.Load` (state.go lines 41-64). -/
def Store.load (s : Store) (r : ReadResult) : Except Unit Store :=
  if s.path = "" then .ok s
  else
    match r with
    | .notExist => .ok s
    | .readErr => .error ()
    | .ok none => .ok s
    | .ok (some ds) =>
      match ds.files with
      | none => .ok s
      | some files => .ok { s with data := mergeFiles s.data files, lastRun := ds.lastRun }

/-- Embeds `Store.Get`. -/
def Store.get (s : Store) (p : String) : Option Int × Bool :=
  match s.data p with
  | some v => (some v, true)
  | none => (none, false)

/-- Embeds `Store.Set` (state.go lines 107-114): `!ok || cur != value`
is exactly `s.data p ≠ some value`. -/
def Store.set (s : Store) (p : String) (value : Int) : Store :=
  if s.data p = some value then s
  else { s with data := fun q => if q = p then some value else s.data q, dirty := true }

/-- Embeds `Store.SetLastRun`. -/
def Store.setLastRun (s : Store) (t : Int) : Store :=
  { s with lastRun := t, dirty := true }

/-- Environment for one `Save`: whether each filesystem step succeeds
(`json.Marshal` of this value type cannot fail). -/
structure SaveEnv where
  mkdirOk : Bool
  writeOk : Bool
  renameOk : Bool
deriving DecidableEq

/-- Embeds `Store.Save` (state.go lines 69-92): the store is returned as
left by the call (`dirty` cleared only after a successful rename). -/
def Store.save (s : Store) (env : SaveEnv) : Except Unit Store :=
  if s.path = "" ∨ s.dirty = false then .ok s
  else if env.mkdirOk = false then .error ()
  else if env.writeOk = false then .error ()
  else if env.renameOk = false then .error ()
  else .ok { s with dirty := false }

/-! ## Worker pool (internal/app/workerpool.go) -/

/-- The deterministic control decisions of `RunParallel`: whether it
returned `nil` before spawning anything, and how many worker goroutines
`wg.Add(concurrency)` starts. -/
structure RunPlan where
  immediateSuccess : Bool
  workers : Nat
deriving DecidableEq

/-- Embeds `RunParallel`'s prelude (workerpool.go lines 18-27 and the
spawn loop at 59-61): the empty fast path, the auto concurrency
`max(min(runtime.NumCPU(), 8), 2)`, and the clamp to `len(tasks)`. -/
def runParallelPlan (numCPU : Nat) (concurrency : Int) (numTasks : Nat) : RunPlan :=
  if numTasks = 0 then { immediateSuccess := true, workers := 0 }
  else
    let c := if concurrency ≤ 0 then max (min (numCPU : Int) 8) 2 else concurrency
    let c := if c > (numTasks : Int) then (numTasks : Int) else c
    { immediateSuccess := false, workers := c.toNat }

/-! ## GCS uploader (internal/uploader/gcs.go) -/

/-- Embeds `uploader.UploadedFile`. -/
structure UploadedFile where
  name : String
  size : Int
  checksum : String
  path : String
deriving DecidableEq

/-- Filesystem/network oracle for the uploader: `lstat` answers
`os.Lstat`; `contents` gives the bytes `getChecksum` would stream
(`none` = open/read fails); `uploadOk` tells whether uploading that
local path succeeds. -/
structure UploadFS where
  lstat : String → Option GoFileInfo
  contents : String → Option (List Nat)
  uploadOk : String → Bool

/-- Embeds `makePrefixGetter` (gcs.go lines 198-213); the memo cache is
pure memoisation, so the embedding is the computed value. -/
def gcsObjectPre (objPre : String) (dir : String) : String :=
  if ¬ objPre = "" then goTrimSuffix objPre "/" ++ "/" ++ pathBase dir
  else pathBase dir

/-- A file entry selected for upload by the task-construction loop
(gcs.go lines 100-151), with its `Lstat` result and object name. -/
structure SelEntry where
  fe : FileEntry
  fi : GoFileInfo
  objectName : String
deriving DecidableEq

/-- Embeds the skip logic of the task-construction loop: empty paths,
`Lstat` failures, symlinks, directories and `.RDY`-suffixed names are
skipped (gcs.go lines 105-114).  `filepath.ToSlash` is the identity on
Unix. -/
def selectUploadEntries (fs : UploadFS) (objPre : String) (entries : List FileEntry) :
    List SelEntry :=
  entries.filterMap (fun fe =>
    if fe.path = "" then none
    else
      match fs.lstat fe.path with
      | none => none
      | some fi =>
        if fi.isSymlink = true ∨ fi.isDir = true ∨ hasSuffixRDY fe.name then none
        else some { fe := fe, fi := fi,
                    objectName := gcsObjectPre objPre (pathDir fe.path) ++ "/" ++ fe.name })

/-- Runs the constructed upload tasks.  The nested `RunParallel` is
modelled sequentially in task-construction order: when every task
succeeds the collected metadata is exactly this list (order aside, which
the scheduler does not fix), and on any failure `UploadListedEntries`
returns `(nil, err)` so partial metadata is unobservable. -/
def runUploadTasks (sha : List Nat → String) (fs : UploadFS) :
    List SelEntry → Except String (List UploadedFile)
  | [] => .ok []
  | se :: rest =>
    match fs.contents se.fe.path with
    | none => .error "checksum"
    | some bytes =>
      if fs.uploadOk se.fe.path = false then .error "upload"
      else
        match runUploadTasks sha fs rest with
        | .error e => .error e
        | .ok ms =>
          .ok ({ name := se.fe.name, size := se.fi.size, checksum := sha bytes,
                 path := se.objectName } :: ms)

/-- Embeds `UploadListedEntries` (gcs.go lines 77-159).  `sha` is the
external SHA-256 hex digest (crypto/sha256 is outside this repository);
`clientOk` is `u.client != nil || u.fileUploadHook != nil`. -/
def uploadListedEntries (sha : List Nat → String) (fs : UploadFS) (bucket : String)
    (clientOk : Bool) (entries : List FileEntry) (objPre : String) :
    Except String (List UploadedFile) :=
  if bucket = "" then .error "bucket not configured"
  else if clientOk = false then .error "uploader client not initialized"
  else if entries.isEmpty then .ok []
  else
    let sel := selectUploadEntries fs objPre entries
    if sel.isEmpty then .ok []
    else runUploadTasks sha fs sel

/-! ## Concrete filesystems used by witnesses and counterexamples -/

def exDirInfo : GoFileInfo := { isDir := true, isSymlink := false, size := 0, modTimeNs := 0 }

def exFileInfo (sz mt : Int) : GoFileInfo :=
  { isDir := false, isSymlink := false, size := sz, modTimeNs := mt }

/-- A root with one marker whose companion folder exists as a directory
but whose listing fails. -/
def listFailFS : OracleFS where
  stat := fun p =>
    if p = "/r" then some exDirInfo
    else if p = "/r/A" then some exDirInfo
    else none
  lstat := fun _ => none
  rawReadDir := fun p =>
    if p = "/r" then some [{ name := "A.RDY", isDir := false, isSymlink := false,
                             info := some (exFileInfo 1 5) }]
    else none

/-- Uploader fixture: one regular file, one subdirectory, one symlink and
one marker among the listed entries. -/
def upFS : UploadFS where
  lstat := fun p =>
    if p = "/r/F/data.txt" then some (exFileInfo 3 1)
    else if p = "/r/F/sub" then some exDirInfo
    else if p = "/r/F/link" then some { isDir := false, isSymlink := true, size := 0, modTimeNs := 0 }
    else if p = "/r/F/A.RDY" then some (exFileInfo 1 1)
    else none
  contents := fun p => if p = "/r/F/data.txt" then some [1, 2, 3] else none
  uploadOk := fun _ => true

def upEntries : List FileEntry :=
  [{ name := "data.txt", size := 3, modTime := 1, path := "/r/F/data.txt" },
   { name := "sub", size := 0, modTime := 0, path := "/r/F/sub" },
   { name := "link", size := 0, modTime := 0, path := "/r/F/link" },
   { name := "A.RDY", size := 1, modTime := 1, path := "/r/F/A.RDY" }]

/-- Stand-in digest function for witnesses (the hash itself is external). -/
def shaW : List Nat → String := fun _ => "digest"

/-- Fixture for enumeration-order independence: one tree listed in one
raw order... -/
def permFSA : OracleFS where
  stat := fun p =>
    if p = "/r" then some exDirInfo
    else if p = "/r/B" then some exDirInfo
    else none
  lstat := fun p => if p = "/r" then some exDirInfo else none
  rawReadDir := fun p =>
    if p = "/r" then some
      [{ name := "B.RDY", isDir := false, isSymlink := false, info := some (exFileInfo 1 1) },
       { name := "A.RDY", isDir := false, isSymlink := false, info := some (exFileInfo 1 2) },
       { name := "B", isDir := true, isSymlink := false, info := some exDirInfo }]
    else if p = "/r/B" then some
      [{ name := "y.txt", isDir := false, isSymlink := false, info := some (exFileInfo 2 3) },
       { name := "x.txt", isDir := false, isSymlink := false, info := none }]
    else none

/-- ... and the same tree with each directory enumerated in the reverse
raw order. -/
def permFSB : OracleFS where
  stat := permFSA.stat
  lstat := permFSA.lstat
  rawReadDir := fun p =>
    if p = "/r" then some
      [{ name := "B", isDir := true, isSymlink := false, info := some exDirInfo },
       { name := "A.RDY", isDir := false, isSymlink := false, info := some (exFileInfo 1 2) },
       { name := "B.RDY", isDir := false, isSymlink := false, info := some (exFileInfo 1 1) }]
    else if p = "/r/B" then some
      [{ name := "x.txt", isDir := false, isSymlink := false, info := none },
       { name := "y.txt", isDir := false, isSymlink := false, info := some (exFileInfo 2 3) }]
    else none

/-- Fixture for the marker named exactly ".RDY": its candidate folder is
its own parent directory. -/
def dotRdyFS : OracleFS where
  stat := fun p => if p = "/r" then some exDirInfo else none
  lstat := fun _ => none
  rawReadDir := fun p =>
    if p = "/r" then some
      [{ name := ".RDY", isDir := false, isSymlink := false, info := some (exFileInfo 1 5) },
       { name := "other.txt", isDir := false, isSymlink := false, info := some (exFileInfo 2 6) }]
    else none

def dotRdyMatch : Match :=
  { readyFile := "/r/.RDY", folder := "/r", missingFolder := false,
    folderEntries :=
      [{ name := ".RDY", size := 1, modTime := 5, path := "/r/.RDY" },
       { name := "other.txt", size := 2, modTime := 6, path := "/r/other.txt" }] }

/-! ## Helper lemmas -/

theorem mergeFiles_isSome (files : List (String × Int)) (d : String → Option Int)
    (k : String) (h : (d k).isSome = true) : ((mergeFiles d files) k).isSome = true := by
  induction files generalizing d with
  | nil => exact h
  | cons kv rest ih =>
    unfold mergeFiles at ih ⊢
    simp only [List.foldl_cons]
    apply ih
    by_cases hk : k = kv.1 <;> simp [hk, h]

theorem runUploadTasks_ok (sha : List Nat → String) (fs : UploadFS) :
    ∀ sel res, runUploadTasks sha fs sel = .ok res →
      ∀ uf ∈ res, ∃ se ∈ sel, ∃ bytes,
        fs.contents se.fe.path = some bytes ∧
        uf = { name := se.fe.name, size := se.fi.size, checksum := sha bytes,
               path := se.objectName } := by
  intro sel
  induction sel with
  | nil =>
    intro res h uf hm
    simp only [runUploadTasks] at h
    cases h
    simp at hm
  | cons se rest ih =>
    intro res h uf hm
    simp only [runUploadTasks] at h
    cases hc : fs.contents se.fe.path with
    | none => simp only [hc] at h; exact Except.noConfusion h
    | some bytes =>
      simp only [hc] at h
      by_cases hu : fs.uploadOk se.fe.path = false
      · simp only [if_pos hu] at h
        exact Except.noConfusion h
      · simp only [if_neg hu] at h
        cases hr : runUploadTasks sha fs rest with
        | error e => simp only [hr] at h; exact Except.noConfusion h
        | ok ms =>
          simp only [hr] at h
          cases h
          rcases List.mem_cons.mp hm with h1 | h2
          · exact ⟨se, List.mem_cons_self _ _, bytes, hc, h1⟩
          · rcases ih ms hr uf h2 with ⟨se2, hse2, b2, hb2, he2⟩
            exact ⟨se2, List.mem_cons_of_mem _ hse2, b2, hb2, he2⟩

theorem selectUploadEntries_spec (fs : UploadFS) (objPre : String)
    (entries : List FileEntry) :
    ∀ se ∈ selectUploadEntries fs objPre entries,
      fs.lstat se.fe.path = some se.fi ∧ se.fi.isDir = false ∧
      se.fi.isSymlink = false ∧ hasSuffixRDY se.fe.name = false ∧ ¬ se.fe.path = "" := by
  intro se hse
  rcases List.mem_filterMap.mp hse with ⟨fe, _, hf⟩
  by_cases hp : fe.path = ""
  · rw [if_pos hp] at hf
    exact Option.noConfusion hf
  · rw [if_neg hp] at hf
    cases hl : fs.lstat fe.path with
    | none =>
      simp only [hl] at hf
      exact Option.noConfusion hf
    | some fi =>
      simp only [hl] at hf
      split at hf
      · exact Option.noConfusion hf
      · rename_i hskip
        cases hf
        push_neg at hskip
        refine ⟨hl, ?_, ?_, ?_, hp⟩
        · simpa using hskip.2.1
        · simpa using hskip.1
        · simpa using hskip.2.2

theorem splitSlash_ne_nil : ∀ cs, ¬ splitSlash cs = [] := by
  intro cs
  cases cs with
  | nil => simp [splitSlash]
  | cons c rest =>
    unfold splitSlash
    split
    · simp
    · cases h : splitSlash rest <;> simp

theorem splitSlash_no_slash : ∀ cs, ∀ c ∈ splitSlash cs, '/' ∉ c := by
  intro cs
  induction cs with
  | nil =>
    intro c hc
    simp [splitSlash] at hc
    subst hc
    simp
  | cons a rest ih =>
    intro c hc
    unfold splitSlash at hc
    by_cases ha : a = '/'
    · rw [if_pos ha] at hc
      rcases List.mem_cons.mp hc with h | h
      · subst h; simp
      · exact ih c h
    · rw [if_neg ha] at hc
      cases hs : splitSlash rest with
      | nil => exact absurd hs (splitSlash_ne_nil rest)
      | cons g gs =>
        rw [hs] at hc
        rcases List.mem_cons.mp hc with h | h
        · subst h
          intro hmem
          rcases List.mem_cons.mp hmem with h2 | h2
          · exact ha h2.symm
          · exact ih g (hs ▸ List.mem_cons_self g gs) h2
        · exact ih c (hs ▸ List.mem_cons_of_mem g h)

theorem splitSlash_append_slash : ∀ cs, splitSlash (cs ++ ['/']) = splitSlash cs ++ [[]] := by
  intro cs
  induction cs with
  | nil => rfl
  | cons a rest ih =>
    show splitSlash (a :: (rest ++ ['/'])) = splitSlash (a :: rest) ++ [[]]
    unfold splitSlash
    by_cases ha : a = '/'
    · rw [if_pos ha, if_pos ha, ih]
      rfl
    · rw [if_neg ha, if_neg ha, ih]
      cases hs : splitSlash rest with
      | nil => exact absurd hs (splitSlash_ne_nil rest)
      | cons g gs => rfl

theorem cleanFold_append_empty (rooted : Bool) :
    ∀ comps acc, cleanFold rooted acc (comps ++ [[]]) = cleanFold rooted acc comps := by
  intro comps
  induction comps with
  | nil =>
    intro acc
    show cleanFold rooted acc [[]] = cleanFold rooted acc []
    unfold cleanFold
    rw [if_pos (Or.inl rfl)]
    rfl
  | cons c rest ih =>
    intro acc
    show cleanFold rooted acc (c :: (rest ++ [[]])) = cleanFold rooted acc (c :: rest)
    unfold cleanFold
    by_cases h1 : c = [] ∨ c = ['.']
    · rw [if_pos h1, if_pos h1]
      exact ih acc
    · rw [if_neg h1, if_neg h1]
      by_cases h2 : c = dotdot
      · rw [if_pos h2, if_pos h2]
        cases acc with
        | nil =>
          dsimp only
          by_cases hr : rooted = true
          · rw [if_pos hr, if_pos hr]
            exact ih []
          · rw [if_neg hr, if_neg hr]
            exact ih [dotdot]
        | cons x xs =>
          dsimp only
          by_cases h3 : x = dotdot
          · rw [if_pos h3, if_pos h3]
            exact ih _
          · rw [if_neg h3, if_neg h3]
            exact ih xs
      · rw [if_neg h2, if_neg h2]
        exact ih _

theorem goodComp_dotdot : goodComp dotdot := by
  refine ⟨by decide, by decide, by decide⟩

theorem cleanFold_good (rooted : Bool) :
    ∀ comps acc, (∀ c ∈ acc, goodComp c) → (∀ c ∈ comps, '/' ∉ c) →
      ∀ c ∈ cleanFold rooted acc comps, goodComp c := by
  intro comps
  induction comps with
  | nil =>
    intro acc hacc _ c hc
    exact hacc c (List.mem_reverse.mp hc)
  | cons c0 rest ih =>
    intro acc hacc hcomps c hc
    have hrest : ∀ c ∈ rest, '/' ∉ c := fun c2 h2 => hcomps c2 (List.mem_cons_of_mem c0 h2)
    unfold cleanFold at hc
    by_cases h1 : c0 = [] ∨ c0 = ['.']
    · rw [if_pos h1] at hc
      exact ih acc hacc hrest c hc
    · rw [if_neg h1] at hc
      by_cases h2 : c0 = dotdot
      · rw [if_pos h2] at hc
        cases acc with
        | nil =>
          dsimp only at hc
          by_cases hr : rooted = true
          · rw [if_pos hr] at hc
            exact ih [] (by intro c2 h2b; simp at h2b) hrest c hc
          · rw [if_neg hr] at hc
            refine ih [dotdot] ?_ hrest c hc
            intro c2 h2b
            rw [List.mem_singleton.mp h2b]
            exact goodComp_dotdot
        | cons x xs =>
          dsimp only at hc
          have hx : goodComp x := hacc x (List.mem_cons_self x xs)
          have hxs : ∀ c2 ∈ xs, goodComp c2 :=
            fun c2 h2b => hacc c2 (List.mem_cons_of_mem x h2b)
          by_cases h3 : x = dotdot
          · rw [if_pos h3] at hc
            refine ih (dotdot :: x :: xs) ?_ hrest c hc
            intro c2 h2b
            rcases List.mem_cons.mp h2b with h4 | h4
            · rw [h4]; exact goodComp_dotdot
            · exact hacc c2 h4
          · rw [if_neg h3] at hc
            exact ih xs hxs hrest c hc
      · rw [if_neg h2] at hc
        refine ih (c0 :: acc) ?_ hrest c hc
        intro c2 h2b
        rcases List.mem_cons.mp h2b with h4 | h4
        · subst h4
          push_neg at h1
          exact ⟨h1.1, h1.2, hcomps c2 (List.mem_cons_self c2 rest)⟩
        · exact hacc c2 h4

theorem cleanFold_shape (rooted : Bool) :
    ∀ comps acc rest0 k,
      acc = rest0 ++ List.replicate k dotdot → noDD rest0 → (rooted = true → k = 0) →
      ∃ k2 rest2, cleanFold rooted acc comps = List.replicate k2 dotdot ++ rest2 ∧
        noDD rest2 ∧ (rooted = true → k2 = 0) := by
  intro comps
  induction comps with
  | nil =>
    intro acc rest0 k hacc hnd hrk
    refine ⟨k, rest0.reverse, ?_, ?_, hrk⟩
    · show acc.reverse = _
      rw [hacc, List.reverse_append, List.reverse_replicate]
    · intro c hcm
      exact hnd c (List.mem_reverse.mp hcm)
  | cons c0 rest ih =>
    intro acc rest0 k hacc hnd hrk
    subst hacc
    unfold cleanFold
    by_cases h1 : c0 = [] ∨ c0 = ['.']
    · rw [if_pos h1]
      exact ih _ rest0 k rfl hnd hrk
    · rw [if_neg h1]
      by_cases h2 : c0 = dotdot
      · rw [if_pos h2]
        cases rest0 with
        | nil =>
          rw [List.nil_append]
          cases k with
          | zero =>
            rw [List.replicate_zero]
            dsimp only
            by_cases hr : rooted = true
            · rw [if_pos hr]
              exact ih [] [] 0 rfl (fun c hcm => absurd hcm (List.not_mem_nil c))
                (fun _ => rfl)
            · rw [if_neg hr]
              exact ih [dotdot] [] 1 rfl (fun c hcm => absurd hcm (List.not_mem_nil c))
                (fun h => absurd h hr)
          | succ k2 =>
            rw [List.replicate_succ]
            dsimp only
            rw [if_pos rfl]
            refine ih (dotdot :: dotdot :: List.replicate k2 dotdot) [] (k2 + 2)
              (by simp [List.replicate_succ]) (fun c hcm => absurd hcm (List.not_mem_nil c))
              (fun h => absurd (hrk h) (Nat.succ_ne_zero k2))
        | cons r rs =>
          rw [List.cons_append]
          dsimp only
          rw [if_neg (hnd r (List.mem_cons_self r rs))]
          exact ih (rs ++ List.replicate k dotdot) rs k rfl
            (fun c hcm => hnd c (List.mem_cons_of_mem r hcm)) hrk
      · rw [if_neg h2]
        refine ih (c0 :: (rest0 ++ List.replicate k dotdot)) (c0 :: rest0) k
          (by rw [List.cons_append]) ?_ hrk
        intro c hcm
        rcases List.mem_cons.mp hcm with h4 | h4
        · subst h4; exact h2
        · exact hnd c h4

theorem splitSlash_no_sep : ∀ c, '/' ∉ c → splitSlash c = [c] := by
  intro c
  induction c with
  | nil => intro _; rfl
  | cons a rest ih =>
    intro h
    have ha : ¬ a = '/' := by
      intro heq
      subst heq
      exact h (List.mem_cons_self _ _)
    unfold splitSlash
    rw [if_neg ha, ih (fun hm => h (List.mem_cons_of_mem a hm))]

theorem splitSlash_append_sep :
    ∀ c t, '/' ∉ c → splitSlash (c ++ '/' :: t) = c :: splitSlash t := by
  intro c
  induction c with
  | nil =>
    intro t _
    show splitSlash ('/' :: t) = [] :: splitSlash t
    conv_lhs => rw [splitSlash]
    rw [if_pos rfl]
  | cons a c2 ih =>
    intro t h
    have ha : ¬ a = '/' := by
      intro heq
      subst heq
      exact h (List.mem_cons_self _ _)
    show splitSlash (a :: (c2 ++ '/' :: t)) = (a :: c2) :: splitSlash t
    conv_lhs => rw [splitSlash]
    rw [if_neg ha, ih t (fun hm => h (List.mem_cons_of_mem a hm))]

theorem splitSlash_renderComps : ∀ l, ¬ l = [] → (∀ c ∈ l, '/' ∉ c) →
    splitSlash (renderComps l) = l := by
  intro l
  induction l with
  | nil => intro h _; exact absurd rfl h
  | cons c rest ih =>
    intro _ hsl
    cases rest with
    | nil => exact splitSlash_no_sep c (hsl c (List.mem_cons_self c []))
    | cons r rs =>
      show splitSlash (c ++ '/' :: renderComps (r :: rs)) = c :: (r :: rs)
      rw [splitSlash_append_sep c _ (hsl c (List.mem_cons_self _ _)),
        ih (by simp) (fun c2 h2 => hsl c2 (List.mem_cons_of_mem c h2))]

theorem cleanFold_nondd (rooted : Bool) :
    ∀ rest acc, (∀ c ∈ rest, goodComp c ∧ ¬ c = dotdot) →
      cleanFold rooted acc rest = acc.reverse ++ rest := by
  intro rest
  induction rest with
  | nil =>
    intro acc _
    show acc.reverse = acc.reverse ++ []
    rw [List.append_nil]
  | cons c r ih =>
    intro acc h
    have hc := h c (List.mem_cons_self c r)
    unfold cleanFold
    rw [if_neg (show ¬ (c = [] ∨ c = ['.']) from fun hor => hor.elim hc.1.1 hc.1.2.1),
      if_neg hc.2, ih (c :: acc) (fun c2 h2 => h c2 (List.mem_cons_of_mem c h2)),
      List.reverse_cons, List.append_assoc]
    rfl

theorem cleanFold_replicate (rest : List (List Char))
    (hrest : ∀ c ∈ rest, goodComp c ∧ ¬ c = dotdot) :
    ∀ k j, cleanFold false (List.replicate j dotdot) (List.replicate k dotdot ++ rest) =
      List.replicate (j + k) dotdot ++ rest := by
  intro k
  induction k with
  | zero =>
    intro j
    rw [List.replicate_zero, List.nil_append, cleanFold_nondd false rest _ hrest,
      List.reverse_replicate, Nat.add_zero]
  | succ k2 ih =>
    intro j
    rw [List.replicate_succ, List.cons_append]
    unfold cleanFold
    rw [if_neg (show ¬ (dotdot = [] ∨ dotdot = ['.']) by decide), if_pos rfl]
    cases j with
    | zero =>
      rw [List.replicate_zero]
      dsimp only
      rw [if_neg (show ¬ (false = true) by decide),
        show ([dotdot] : List (List Char)) = List.replicate 1 dotdot from rfl, ih 1,
        show (0 + (k2 + 1)) = 1 + k2 by omega]
    | succ j2 =>
      rw [List.replicate_succ]
      dsimp only
      rw [if_pos rfl,
        show (dotdot :: dotdot :: List.replicate j2 dotdot) =
          List.replicate (j2 + 2) dotdot by simp [List.replicate_succ],
        ih (j2 + 2), show (j2 + 1 + (k2 + 1)) = j2 + 2 + k2 by omega]

theorem pathClean_cons (c : Char) (cs : List Char) :
    pathClean ⟨c :: cs⟩ =
      (let rooted : Bool := c = '/'
       let out := renderComps (cleanFold rooted [] (splitSlash (c :: cs)))
       if rooted then ⟨'/' :: out⟩ else if out = [] then "." else ⟨out⟩) := rfl

theorem pathClean_ne_empty (s : String) : ¬ pathClean s = "" := by
  cases s with
  | mk cs =>
    cases cs with
    | nil => decide
    | cons c cs2 =>
      rw [pathClean_cons]
      dsimp only
      split
      · intro h
        have h2 := congrArg String.data h
        simp at h2
      · split
        · decide
        · rename_i hout
          intro h
          exact hout (congrArg String.data h)

theorem renderComps_head : ∀ c0 crest, ¬ c0 = [] →
    ∃ a t, renderComps (c0 :: crest) = a :: t ∧ a ∈ c0 := by
  intro c0 crest h
  cases c0 with
  | nil => exact absurd rfl h
  | cons a c02 =>
    cases crest with
    | nil => exact ⟨a, c02, rfl, List.mem_cons_self _ _⟩
    | cons r rs => exact ⟨a, c02 ++ '/' :: renderComps (r :: rs), rfl, List.mem_cons_self _ _⟩

theorem pathClean_idem (s : String) : pathClean (pathClean s) = pathClean s := by
  cases s with
  | mk cs =>
    cases cs with
    | nil => rfl
    | cons c cs2 =>
      have hgood : ∀ x ∈ cleanFold (decide (c = '/')) [] (splitSlash (c :: cs2)), goodComp x :=
        cleanFold_good _ (splitSlash (c :: cs2)) []
          (fun x hx => absurd hx (List.not_mem_nil x)) (splitSlash_no_slash _)
      obtain ⟨k2, rest2, hceq, hnd2, hk2⟩ :=
        cleanFold_shape (decide (c = '/')) (splitSlash (c :: cs2)) [] [] 0 rfl
          (fun x hx => absurd hx (List.not_mem_nil x)) (fun _ => rfl)
      rw [pathClean_cons]
      dsimp only
      by_cases hc : c = '/'
      · have hr : (decide (c = '/')) = true := by rw [hc]; rfl
        rw [hr] at hgood hceq hk2 ⊢
        rw [if_pos rfl]
        have hk0 : k2 = 0 := hk2 rfl
        subst hk0
        rw [List.replicate_zero, List.nil_append] at hceq
        rw [hceq] at hgood ⊢
        cases rest2 with
        | nil => rfl
        | cons c0 crest =>
          obtain ⟨a, t, hout, hmem⟩ :=
            renderComps_head c0 crest (hgood c0 (List.mem_cons_self c0 crest)).1
          rw [hout, pathClean_cons]
          dsimp only
          rw [show (decide ('/' = '/')) = true from rfl, if_pos rfl]
          have h1 : splitSlash ('/' :: (a :: t)) = [] :: splitSlash (a :: t) := by
            conv_lhs => rw [splitSlash]
            rw [if_pos rfl]
          have h2 : splitSlash (a :: t) = c0 :: crest := by
            rw [← hout]
            exact splitSlash_renderComps _ (by simp) (fun x hx => (hgood x hx).2.2)
          have h3 : cleanFold true [] ([] :: (c0 :: crest)) = cleanFold true [] (c0 :: crest) := by
            conv_lhs => rw [cleanFold]
            rw [if_pos (Or.inl rfl)]
          have h4 : cleanFold true [] (c0 :: crest) = c0 :: crest := by
            have h5 := cleanFold_nondd true (c0 :: crest) []
              (fun x hx => ⟨hgood x hx, hnd2 x hx⟩)
            simpa using h5
          rw [h1, h2, h3, h4, hout]
      · have hr : (decide (c = '/')) = false := decide_eq_false hc
        rw [hr] at hgood hceq ⊢
        rw [if_neg (show ¬ (false = true) by decide)]
        rw [hceq] at hgood ⊢
        cases hL : (List.replicate k2 dotdot ++ rest2) with
        | nil => rfl
        | cons c0 crest =>
          rw [hL] at hgood
          obtain ⟨a, t, hout, hmem⟩ :=
            renderComps_head c0 crest (hgood c0 (List.mem_cons_self c0 crest)).1
          have hane : ¬ a = '/' := fun heq =>
            (hgood c0 (List.mem_cons_self c0 crest)).2.2 (heq ▸ hmem)
          rw [hout, if_neg (show ¬ (a :: t) = [] by simp), pathClean_cons]
          dsimp only
          rw [decide_eq_false hane, if_neg (show ¬ (false = true) by decide)]
          have h2 : splitSlash (a :: t) = c0 :: crest := by
            rw [← hout]
            exact splitSlash_renderComps _ (by simp) (fun x hx => (hgood x hx).2.2)
          have h4 : cleanFold false [] (c0 :: crest) = c0 :: crest := by
            rw [← hL]
            have h5 := cleanFold_replicate rest2
              (fun x hx => ⟨hgood x (hL ▸ List.mem_append_right _ hx),
                hnd2 x hx⟩) k2 0
            rw [show (List.replicate 0 dotdot) = [] from rfl, Nat.zero_add] at h5
            exact h5
          rw [h2, h4, hout, if_neg (show ¬ (a :: t) = [] by simp)]

theorem pathClean_append_slash (s : String) (hs : ¬ s = "") :
    pathClean (s ++ "/") = pathClean s := by
  cases s with
  | mk cs =>
    cases cs with
    | nil => exact absurd rfl hs
    | cons c cs2 =>
      have hd : ((⟨c :: cs2⟩ : String) ++ "/") = ⟨c :: (cs2 ++ ['/'])⟩ := rfl
      rw [hd, pathClean_cons, pathClean_cons]
      dsimp only
      have hsplit : splitSlash (c :: (cs2 ++ ['/'])) = splitSlash (c :: cs2) ++ [[]] := by
        have h1 := splitSlash_append_slash (c :: cs2)
        rw [List.cons_append] at h1
        exact h1
      rw [hsplit, cleanFold_append_empty]

theorem pathDir_clean (p : String) : pathClean (pathDir p) = pathDir p := by
  unfold pathDir
  exact pathClean_idem _

theorem pathDir_ne_empty (p : String) : ¬ pathDir p = "" := by
  unfold pathDir
  exact pathClean_ne_empty _

theorem goJoin_empty_right (a : String) (ha : ¬ a = "") : goJoin a "" = pathClean a := by
  unfold goJoin
  rw [if_pos ha]
  have he : a ++ "/" ++ "" = a ++ "/" := by
    cases a with
    | mk la =>
      show String.mk ((la ++ ['/']) ++ []) = String.mk (la ++ ['/'])
      rw [List.append_nil]
  rw [he, pathClean_append_slash a ha]

theorem upChar_eq_dot {c : Char} (h : upChar c = '.') : c = '.' := by
  unfold upChar at h
  split at h <;> first
    | exact absurd h (by decide)
    | exact h

theorem upChar_dot_ne {c x : Char} (h : upChar c = x) (hx : ¬ upChar '.' = x) :
    ¬ c = '.' := by
  intro hcd
  subst hcd
  exact hx h

theorem upChar_slash_ne {c x : Char} (h : upChar c = x) (hx : ¬ upChar '/' = x) :
    ¬ c = '/' := by
  intro hcd
  subst hcd
  exact hx h

theorem goToUpper_dot_rdy {s : String} (h : goToUpper s = ".RDY") :
    ∃ c1 c2 c3, s.data = ['.', c1, c2, c3] ∧
      (¬ c1 = '.' ∧ ¬ c1 = '/') ∧ (¬ c2 = '.' ∧ ¬ c2 = '/') ∧
      (¬ c3 = '.' ∧ ¬ c3 = '/') := by
  have hdata : s.data.map upChar = ['.', 'R', 'D', 'Y'] := congrArg String.data h
  cases s with
  | mk l =>
    cases l with
    | nil => simp at hdata
    | cons c0 r0 =>
    cases r0 with
    | nil => simp at hdata
    | cons d1 r1 =>
    cases r1 with
    | nil => simp at hdata
    | cons d2 r2 =>
    cases r2 with
    | nil => simp at hdata
    | cons d3 r3 =>
    cases r3 with
    | cons d4 r4 => simp at hdata
    | nil =>
      simp only [List.map_cons, List.map_nil, List.cons.injEq, and_true] at hdata
      obtain ⟨h0, h1, h2, h3⟩ := hdata
      refine ⟨d1, d2, d3, ?_, ?_, ?_, ?_⟩
      · rw [upChar_eq_dot h0]
      · exact ⟨upChar_dot_ne h1 (by decide), upChar_slash_ne h1 (by decide)⟩
      · exact ⟨upChar_dot_ne h2 (by decide), upChar_slash_ne h2 (by decide)⟩
      · exact ⟨upChar_dot_ne h3 (by decide), upChar_slash_ne h3 (by decide)⟩

theorem isPrefixOf_self (l : List Char) : l.isPrefixOf l = true := by
  induction l with
  | nil => rfl
  | cons a r ih =>
    show (a == a && r.isPrefixOf r) = true
    rw [beq_self_eq_true, ih]
    rfl

theorem isSuffixOf_self (l : List Char) : l.isSuffixOf l = true :=
  isPrefixOf_self l.reverse

theorem goTrimSuffix_self (s : String) : goTrimSuffix s s = "" := by
  unfold goTrimSuffix
  rw [if_pos (isSuffixOf_self s.data), Nat.sub_self, List.take_zero]

theorem pathExt_dot_name (s : String) (c1 c2 c3 : Char)
    (hdata : s.data = ['.', c1, c2, c3])
    (h1 : ¬ c1 = '.' ∧ ¬ c1 = '/') (h2 : ¬ c2 = '.' ∧ ¬ c2 = '/')
    (h3 : ¬ c3 = '.' ∧ ¬ c3 = '/') : pathExt s = s := by
  unfold pathExt
  rw [hdata]
  have e1 : (['.', c1, c2, c3] : List Char).reverse = [c3, c2, c1, '.'] := by
    simp
  rw [e1]
  have e2 : ([c3, c2, c1, '.'] : List Char).takeWhile (fun c => ¬ c = '/') =
      [c3, c2, c1, '.'] := by
    rw [List.takeWhile_cons, if_pos (by simp [h3.2]), List.takeWhile_cons,
      if_pos (by simp [h2.2]), List.takeWhile_cons, if_pos (by simp [h1.2]),
      List.takeWhile_cons, if_pos (by simp)]
    rfl
  rw [e2]
  have e3 : takeUpToDot [c3, c2, c1, '.'] = some [c3, c2, c1, '.'] := by
    simp only [takeUpToDot]
    rw [if_neg h3.1, if_neg h2.1, if_neg h1.1]
    simp
  rw [e3]
  show String.mk ([c3, c2, c1, '.'].reverse) = s
  rw [show ([c3, c2, c1, '.'] : List Char).reverse = ['.', c1, c2, c3] by simp, ← hdata]

theorem candidateDir_dot_rdy (rdy : String) (h : goToUpper (pathBase rdy) = ".RDY") :
    candidateDirOf rdy = pathDir rdy := by
  obtain ⟨c1, c2, c3, hdata, h1, h2, h3⟩ := goToUpper_dot_rdy h
  unfold candidateDirOf
  dsimp only
  rw [pathExt_dot_name (pathBase rdy) c1 c2 c3 hdata h1 h2 h3, goTrimSuffix_self,
    goJoin_empty_right _ (pathDir_ne_empty rdy), pathDir_clean]

theorem entryToFileEntry_name (cd : String) (e : GoDirEntry) :
    (entryToFileEntry cd e).name = e.name := by
  unfold entryToFileEntry
  cases e.info <;> rfl

theorem scan_ok_shape (fs : OracleFS) (opts : Options) (fuel : Nat) (root : String)
    (ms : List Match) (h : Scan fs opts fuel root = .ok ms) :
    ∃ rdys, collectRdy fs opts fuel root = .ok rdys ∧
      ms = (sortStrings rdys).map (buildMatch fs) := by
  unfold Scan at h
  cases hs : fs.stat root with
  | none =>
    simp only [hs] at h
    exact Except.noConfusion h
  | some info =>
    simp only [hs] at h
    split at h
    · exact Except.noConfusion h
    · by_cases hrec : opts.recursive = true
      · rw [if_pos hrec] at h
        cases hw : goWalkDirTop fs opts fuel root with
        | error e =>
          simp only [hw] at h
          exact Except.noConfusion h
        | ok rdys =>
          simp only [hw] at h
          cases h
          exact ⟨rdys, by unfold collectRdy; rw [if_pos hrec]; exact hw, rfl⟩
      · rw [if_neg hrec] at h
        cases hw : collectNonRecursive fs root with
        | error e =>
          simp only [hw] at h
          exact Except.noConfusion h
        | ok rdys =>
          simp only [hw] at h
          cases h
          exact ⟨rdys, by unfold collectRdy; rw [if_neg hrec]; exact hw, rfl⟩

theorem buildMatch_readyFile (fs : OracleFS) (rdy : String) :
    (buildMatch fs rdy).readyFile = rdy := by
  unfold buildMatch
  cases h : fs.stat (candidateDirOf rdy) with
  | none => simp [h]
  | some st =>
    simp only [h]
    split
    · cases hos : osReadDir fs (candidateDirOf rdy) <;> simp [hos]
    · rfl

theorem buildMatch_stat_none (fs : OracleFS) (rdy : String)
    (h : fs.stat (candidateDirOf rdy) = none) :
    buildMatch fs rdy = ⟨rdy, "", true, []⟩ := by
  unfold buildMatch
  simp [h]

theorem buildMatch_not_dir (fs : OracleFS) (rdy : String) (i : GoFileInfo)
    (h : fs.stat (candidateDirOf rdy) = some i) (hd : i.isDir = false) :
    buildMatch fs rdy = ⟨rdy, "", true, []⟩ := by
  unfold buildMatch
  simp [h, hd]

theorem buildMatch_list_fail (fs : OracleFS) (rdy : String) (i : GoFileInfo)
    (h : fs.stat (candidateDirOf rdy) = some i) (hd : i.isDir = true)
    (hl : fs.rawReadDir (candidateDirOf rdy) = none) :
    buildMatch fs rdy = ⟨rdy, candidateDirOf rdy, true, []⟩ := by
  unfold buildMatch
  have hos : osReadDir fs (candidateDirOf rdy) = none := by
    unfold osReadDir
    rw [hl]
    rfl
  simp [h, hd, hos]

theorem listLeb_refl : ∀ l, listLeb l l = true := by
  intro l
  induction l with
  | nil => rfl
  | cons a as ih =>
    unfold listLeb
    simp only [if_neg (lt_irrefl a)]
    exact ih

theorem listLeb_nil_false (a : Char) (as : List Char) :
    listLeb (a :: as) [] = false := rfl

theorem listLeb_total : ∀ l₁ l₂, listLeb l₁ l₂ = true ∨ listLeb l₂ l₁ = true := by
  intro l₁
  induction l₁ with
  | nil => intro l₂; exact Or.inl rfl
  | cons a as ih =>
    intro l₂
    cases l₂ with
    | nil => exact Or.inr rfl
    | cons b bs =>
      unfold listLeb
      rcases lt_trichotomy a b with h | h | h
      · exact Or.inl (by rw [if_pos h])
      · subst h
        simp only [if_neg (lt_irrefl a)]
        exact ih bs
      · exact Or.inr (by rw [if_pos h])

theorem listLeb_trans :
    ∀ l₁ l₂ l₃, listLeb l₁ l₂ = true → listLeb l₂ l₃ = true → listLeb l₁ l₃ = true := by
  intro l₁
  induction l₁ with
  | nil => intro l₂ l₃ _ _; rfl
  | cons a as ih =>
    intro l₂ l₃ h12 h23
    cases l₂ with
    | nil => rw [listLeb_nil_false] at h12; exact Bool.noConfusion h12
    | cons b bs =>
      cases l₃ with
      | nil => rw [listLeb_nil_false] at h23; exact Bool.noConfusion h23
      | cons c cs =>
        unfold listLeb at h12 h23 ⊢
        rcases lt_trichotomy a b with hab | hab | hab
        · rcases lt_trichotomy b c with hbc | hbc | hbc
          · rw [if_pos (lt_trans hab hbc)]
          · subst hbc; rw [if_pos hab]
          · rw [if_neg (asymm hbc), if_pos hbc] at h23
            exact Bool.noConfusion h23
        · subst hab
          simp only [if_neg (lt_irrefl a)] at h12
          rcases lt_trichotomy a c with hac | hac | hac
          · rw [if_pos hac]
          · subst hac
            simp only [if_neg (lt_irrefl a)] at h23 ⊢
            exact ih bs cs h12 h23
          · rw [if_neg (asymm hac), if_pos hac] at h23
            exact Bool.noConfusion h23
        · rw [if_neg (asymm hab), if_pos hab] at h12
          exact Bool.noConfusion h12

theorem listLeb_antisymm :
    ∀ l₁ l₂, listLeb l₁ l₂ = true → listLeb l₂ l₁ = true → l₁ = l₂ := by
  intro l₁
  induction l₁ with
  | nil =>
    intro l₂ h12 h21
    cases l₂ with
    | nil => rfl
    | cons b bs => rw [listLeb_nil_false] at h21; exact Bool.noConfusion h21
  | cons a as ih =>
    intro l₂ h12 h21
    cases l₂ with
    | nil => rw [listLeb_nil_false] at h12; exact Bool.noConfusion h12
    | cons b bs =>
      unfold listLeb at h12 h21
      rcases lt_trichotomy a b with hab | hab | hab
      · rw [if_neg (asymm hab), if_pos hab] at h21
        exact Bool.noConfusion h21
      · subst hab
        simp only [if_neg (lt_irrefl a)] at h12 h21
        rw [ih bs h12 h21]
      · rw [if_neg (asymm hab), if_pos hab] at h12
        exact Bool.noConfusion h12

theorem goStrLe_refl (a : String) : goStrLe a a := listLeb_refl a.data

theorem goStrLe_total : ∀ a b : String, goStrLe a b ∨ goStrLe b a :=
  fun a b => listLeb_total a.data b.data

theorem goStrLe_trans : ∀ a b c : String, goStrLe a b → goStrLe b c → goStrLe a c :=
  fun a b c => listLeb_trans a.data b.data c.data

theorem goStrLe_antisymm : ∀ a b : String, goStrLe a b → goStrLe b a → a = b := by
  intro a b h1 h2
  cases a with
  | mk la =>
    cases b with
    | mk lb =>
      rw [listLeb_antisymm la lb h1 h2]

theorem sorted_perm_key_eq {α : Type} (key : α → String) :
    ∀ (l₁ l₂ : List α), l₁.Perm l₂ →
      l₁.Pairwise (fun a b => goStrLe (key a) (key b)) →
      l₂.Pairwise (fun a b => goStrLe (key a) (key b)) →
      (l₁.map key).Nodup → l₁ = l₂ := by
  intro l₁
  induction l₁ with
  | nil =>
    intro l₂ hp _ _ _
    exact hp.nil_eq
  | cons a t ih =>
    intro l₂ hp hs1 hs2 hn
    cases l₂ with
    | nil => exact List.noConfusion hp.eq_nil
    | cons b t₂ =>
      rw [List.map_cons] at hn
      rcases List.nodup_cons.mp hn with ⟨hna, hnt⟩
      have hb_mem : b ∈ a :: t := hp.symm.subset (List.mem_cons_self b t₂)
      have ha_mem : a ∈ b :: t₂ := hp.subset (List.mem_cons_self a t)
      have hab : goStrLe (key a) (key b) := by
        rcases List.mem_cons.mp hb_mem with h | h
        · subst h
          exact goStrLe_refl _
        · exact (List.pairwise_cons.mp hs1).1 b h
      have hba : goStrLe (key b) (key a) := by
        rcases List.mem_cons.mp ha_mem with h | h
        · subst h
          exact goStrLe_refl _
        · exact (List.pairwise_cons.mp hs2).1 a h
      have hk : key b = key a := goStrLe_antisymm _ _ hba hab
      have hba_eq : b = a := by
        rcases List.mem_cons.mp hb_mem with h | h
        · exact h
        · exact absurd (hk ▸ List.mem_map_of_mem key h) hna
      subst hba_eq
      have ht : t = t₂ := ih t₂ hp.cons_inv (List.pairwise_cons.mp hs1).2
        (List.pairwise_cons.mp hs2).2 hnt
      rw [ht]

theorem sortDirEntries_perm_eq (l l2 : List GoDirEntry) (hp : l.Perm l2)
    (hn : (l.map GoDirEntry.name).Nodup) :
    sortDirEntries l = sortDirEntries l2 := by
  haveI : IsTotal GoDirEntry entryLe := ⟨fun a b => goStrLe_total a.name b.name⟩
  haveI : IsTrans GoDirEntry entryLe :=
    ⟨fun a b c => goStrLe_trans a.name b.name c.name⟩
  apply sorted_perm_key_eq GoDirEntry.name
  · exact ((List.perm_insertionSort _ l).trans hp).trans (List.perm_insertionSort _ l2).symm
  · exact List.sorted_insertionSort entryLe l
  · exact List.sorted_insertionSort entryLe l2
  · exact (List.Perm.nodup_iff ((List.perm_insertionSort _ l).map _)).mpr hn

theorem osReadDir_congr (fs fs2 : OracleFS) (he : enumEquiv fs fs2) (hv : validFS fs)
    (p : String) : osReadDir fs p = osReadDir fs2 p := by
  unfold osReadDir
  rcases he.2.2 p with ⟨h1, h2⟩ | ⟨l, l2, h1, h2, hperm⟩
  · rw [h1, h2]
  · rw [h1, h2]
    exact congrArg some (sortDirEntries_perm_eq l l2 hperm (hv p l h1))

theorem walkChildren_congr (step step2 : String → GoDirEntry → Except Unit (List String))
    (hstep : ∀ p d, step p d = step2 p d) (path : String) :
    ∀ l, walkChildren step path l = walkChildren step2 path l := by
  intro l
  induction l with
  | nil => rfl
  | cons d rest ih =>
    unfold walkChildren
    rw [hstep, ih]

theorem walkDirNode_congr (fs fs2 : OracleFS) (opts : Options)
    (hos : ∀ p, osReadDir fs p = osReadDir fs2 p) :
    ∀ fuel path d, walkDirNode fs opts fuel path d = walkDirNode fs2 opts fuel path d := by
  intro fuel
  induction fuel with
  | zero =>
    intro path d
    unfold walkDirNode
    rw [hos]
  | succ n ih =>
    intro path d
    unfold walkDirNode
    rw [hos]
    cases osReadDir fs2 path with
    | none => rfl
    | some dirs =>
      dsimp only
      split
      · rfl
      · split
        · rfl
        · exact walkChildren_congr _ _ (fun p2 d2 => ih p2 d2) path dirs

theorem buildMatch_congr (fs fs2 : OracleFS)
    (hstat : ∀ p, fs.stat p = fs2.stat p)
    (hos : ∀ p, osReadDir fs p = osReadDir fs2 p) (rdy : String) :
    buildMatch fs rdy = buildMatch fs2 rdy := by
  unfold buildMatch
  dsimp only
  rw [hstat, hos]

theorem Scan_congr_aux (fs fs2 : OracleFS) (opts : Options) (fuel : Nat) (root : String)
    (hv : validFS fs) (he : enumEquiv fs fs2) :
    Scan fs opts fuel root = Scan fs2 opts fuel root := by
  have hos : ∀ p, osReadDir fs p = osReadDir fs2 p := osReadDir_congr fs fs2 he hv
  have htop : goWalkDirTop fs opts fuel root = goWalkDirTop fs2 opts fuel root := by
    unfold goWalkDirTop
    rw [he.2.1 root]
    cases fs2.lstat root with
    | none => rfl
    | some i2 => exact walkDirNode_congr fs fs2 opts hos fuel root _
  have hnr : collectNonRecursive fs root = collectNonRecursive fs2 root := by
    unfold collectNonRecursive
    rw [hos root]
  unfold Scan
  rw [he.1 root]
  cases fs2.stat root with
  | none => rfl
  | some info =>
    dsimp only
    split
    · rfl
    · by_cases hrec : opts.recursive = true
      · rw [if_pos hrec, if_pos hrec, htop]
        cases goWalkDirTop fs2 opts fuel root with
        | error e => rfl
        | ok rdys =>
          dsimp only
          congr 1
          exact List.map_congr_left (fun r _ => buildMatch_congr fs fs2 he.1 hos r)
      · rw [if_neg hrec, if_neg hrec, hnr]
        cases collectNonRecursive fs2 root with
        | error e => rfl
        | ok rdys =>
          dsimp only
          congr 1
          exact List.map_congr_left (fun r _ => buildMatch_congr fs fs2 he.1 hos r)

theorem buildMatch_entries_sorted (fs : OracleFS) (rdy : String) :
    (buildMatch fs rdy).folderEntries.Pairwise feLe := by
  unfold buildMatch
  cases h : fs.stat (candidateDirOf rdy) with
  | none => simp [h]
  | some st =>
    simp only [h]
    split
    · cases hos : osReadDir fs (candidateDirOf rdy) with
      | none => simp [hos]
      | some entries =>
        simp only [hos]
        haveI : IsTotal FileEntry feLe := ⟨fun a b => goStrLe_total a.name b.name⟩
        haveI : IsTrans FileEntry feLe :=
          ⟨fun a b c => goStrLe_trans a.name b.name c.name⟩
        exact List.sorted_insertionSort feLe _
    · simp

/-! ## Claim theorems -/

/-- Claim C1 counterexample: a marker whose candidate folder stats as a
directory but whose listing fails yields an item with missingFolder=true
whose folder path is not absent: it still carries the candidate
directory, contradicting the claim that the folder path is empty in
every missing-folder case. -/
theorem scan_missing_folder_cex :
    Scan listFailFS { recursive := false, followSymlinks := false } 4 "/r" =
      .ok [{ readyFile := "/r/A.RDY", folder := "/r/A", missingFolder := true,
             folderEntries := [] }] ∧
    listFailFS.stat (candidateDirOf "/r/A.RDY") = some exDirInfo ∧
    exDirInfo.isDir = true ∧
    listFailFS.rawReadDir (candidateDirOf "/r/A.RDY") = none ∧
    ¬ ("/r/A" : String) = "" := by
  refine ⟨?_, ?_, ?_, ?_, ?_⟩ <;> decide

/-- Claim C1 (amended): every marker in one of the failure cases still
produces an item with missingFolder=true, and no collected marker is
ever dropped; the companion folder path is empty when the stat fails or
the candidate is not a directory, but when the candidate is a directory
whose listing fails the folder path retains the candidate directory. -/
theorem scan_missing_folder_cases (fs : OracleFS) (opts : Options) (fuel : Nat)
    (root : String) (ms : List Match) (h : Scan fs opts fuel root = .ok ms)
    (m : Match) (hm : m ∈ ms) :
    (fs.stat (candidateDirOf m.readyFile) = none →
      m.missingFolder = true ∧ m.folder = "") ∧
    (∀ i, fs.stat (candidateDirOf m.readyFile) = some i → i.isDir = false →
      m.missingFolder = true ∧ m.folder = "") ∧
    (∀ i, fs.stat (candidateDirOf m.readyFile) = some i → i.isDir = true →
      fs.rawReadDir (candidateDirOf m.readyFile) = none →
      m.missingFolder = true ∧ m.folder = candidateDirOf m.readyFile) ∧
    (∀ rdys, collectRdy fs opts fuel root = .ok rdys →
      ∀ r ∈ rdys, ∃ m2 ∈ ms, m2.readyFile = r) := by
  rcases scan_ok_shape fs opts fuel root ms h with ⟨rdys, hc, hms⟩
  subst hms
  rcases List.mem_map.mp hm with ⟨rdy, hrdy, hb⟩
  subst hb
  rw [buildMatch_readyFile]
  refine ⟨?_, ?_, ?_, ?_⟩
  · intro hn
    rw [buildMatch_stat_none fs rdy hn]
    exact ⟨rfl, rfl⟩
  · intro i hi hd
    rw [buildMatch_not_dir fs rdy i hi hd]
    exact ⟨rfl, rfl⟩
  · intro i hi hd hl
    rw [buildMatch_list_fail fs rdy i hi hd hl]
    exact ⟨rfl, rfl⟩
  · intro rdys2 hc2 r hr
    rw [hc2] at hc
    cases hc
    refine ⟨buildMatch fs r, List.mem_map_of_mem _ ?_, buildMatch_readyFile fs r⟩
    unfold sortStrings
    exact (List.mem_insertionSort _).mpr hr

/-- Claim C1 witness: on the listing-failure fixture the produced item has
missingFolder=true and keeps the candidate folder path. -/
theorem scan_missing_folder_cases_witness :
    ({ readyFile := "/r/A.RDY", folder := "/r/A", missingFolder := true,
       folderEntries := [] } : Match).missingFolder = true ∧
    ({ readyFile := "/r/A.RDY", folder := "/r/A", missingFolder := true,
       folderEntries := [] } : Match).folder = candidateDirOf "/r/A.RDY" := by
  have h := scan_missing_folder_cases listFailFS
    { recursive := false, followSymlinks := false } 4 "/r"
    [{ readyFile := "/r/A.RDY", folder := "/r/A", missingFolder := true,
       folderEntries := [] }] (by decide)
    { readyFile := "/r/A.RDY", folder := "/r/A", missingFolder := true,
      folderEntries := [] } (by decide)
  exact h.2.2.1 exDirInfo (by decide) (by decide) (by decide)

/-- Claim C2: whenever the root stats as a directory and the traversal
phase succeeds, Scan returns the full match list (one item per collected
marker, none dropped) without error, regardless of any per-item stat or
listing failure; and any error Scan returns is a root stat failure, a
non-directory root, or a traversal failure. -/
theorem scan_errors_only_root (fs : OracleFS) (opts : Options) (fuel : Nat)
    (root : String) :
    (∀ i rdys, fs.stat root = some i → i.isDir = true →
      collectRdy fs opts fuel root = .ok rdys →
      ∃ ms, Scan fs opts fuel root = .ok ms ∧ ms.length = rdys.length ∧
        ∀ r ∈ rdys, ∃ m ∈ ms, m.readyFile = r) ∧
    (∀ e, Scan fs opts fuel root = .error e →
      fs.stat root = none ∨ (∃ i, fs.stat root = some i ∧ i.isDir = false) ∨
      collectRdy fs opts fuel root = .error ()) := by
  constructor
  · intro i rdys hi hd hc
    refine ⟨(sortStrings rdys).map (buildMatch fs), ?_, ?_, ?_⟩
    · unfold Scan
      simp only [hi, hd]
      unfold collectRdy at hc
      by_cases hrec : opts.recursive = true
      · rw [if_pos hrec] at hc
        simp [hrec, hc]
      · rw [if_neg hrec] at hc
        simp [hrec, hc]
    · rw [List.length_map]
      unfold sortStrings
      exact (List.perm_insertionSort _ _).length_eq
    · intro r hr
      refine ⟨buildMatch fs r, List.mem_map_of_mem _ ?_, buildMatch_readyFile fs r⟩
      unfold sortStrings
      exact (List.mem_insertionSort _).mpr hr
  · intro e h
    unfold Scan at h
    cases hs : fs.stat root with
    | none => exact Or.inl rfl
    | some i =>
      simp only [hs] at h
      split at h
      · rename_i hd
        exact Or.inr (Or.inl ⟨i, rfl, hd⟩)
      · by_cases hrec : opts.recursive = true
        · rw [if_pos hrec] at h
          cases hw : goWalkDirTop fs opts fuel root with
          | error e2 =>
            refine Or.inr (Or.inr ?_)
            unfold collectRdy
            rw [if_pos hrec, hw]
          | ok rdys =>
            simp only [hw] at h
            exact Except.noConfusion h
        · rw [if_neg hrec] at h
          cases hw : collectNonRecursive fs root with
          | error e2 =>
            refine Or.inr (Or.inr ?_)
            unfold collectRdy
            rw [if_neg hrec, hw]
          | ok rdys =>
            simp only [hw] at h
            exact Except.noConfusion h

/-- Claim C2 witness: on the fixture whose only marker has an unreadable
companion folder, Scan still succeeds with the full one-item list. -/
theorem scan_errors_only_root_witness :
    ∃ ms, Scan listFailFS { recursive := false, followSymlinks := false } 4 "/r" = .ok ms ∧
      ms.length = (["/r/A.RDY"] : List String).length ∧
      ∀ r ∈ (["/r/A.RDY"] : List String), ∃ m ∈ ms, m.readyFile = r :=
  (scan_errors_only_root listFailFS { recursive := false, followSymlinks := false }
    4 "/r").1 exDirInfo ["/r/A.RDY"] (by decide) (by decide) (by decide)

/-- Claim C5: when the lock file already exists, a file whose age per the
injected clock strictly exceeds the TTL is removed and exclusive creation
is retried exactly once; in every other outcome (not stale, stat fails,
or the single retry fails) acquisition returns acquired=false with no
error. -/
theorem lock_contention_is_normal (env : LockEnv) (ttl : Int)
    (hex : env.firstCreate = .errExist) :
    (∀ mt, env.statModTime = some mt → env.nowNs - mt > ttl →
      (acquireLockWith env ttl).removedStale = true ∧
      (acquireLockWith env ttl).retriedCreate = 1 ∧
      (env.retryCreateOk = false →
        (acquireLockWith env ttl).acquired = false ∧
        (acquireLockWith env ttl).isErr = false)) ∧
    (env.statModTime = none →
      acquireLockWith env ttl =
        { acquired := false, isErr := false, removedStale := false, retriedCreate := 0 }) ∧
    (∀ mt, env.statModTime = some mt → ¬ env.nowNs - mt > ttl →
      acquireLockWith env ttl =
        { acquired := false, isErr := false, removedStale := false, retriedCreate := 0 }) := by
  unfold acquireLockWith
  rw [hex]
  refine ⟨?_, ?_, ?_⟩
  · intro mt hmt hstale
    rw [hmt]
    simp only [if_pos hstale]
    cases hr : env.retryCreateOk <;> simp
  · intro hnone
    rw [hnone]
  · intro mt hmt hfresh
    rw [hmt]
    simp [if_neg hfresh]

/-- Claim C5 witness: a stale lock with a failing retry is removed,
retried once, and yields acquired=false with no error. -/
theorem lock_contention_is_normal_witness :
    (acquireLockWith
        { firstCreate := .errExist, statModTime := some 0,
          retryCreateOk := false, nowNs := 100 } 10).removedStale = true ∧
    (acquireLockWith
        { firstCreate := .errExist, statModTime := some 0,
          retryCreateOk := false, nowNs := 100 } 10).retriedCreate = 1 ∧
    (acquireLockWith
        { firstCreate := .errExist, statModTime := some 0,
          retryCreateOk := false, nowNs := 100 } 10).acquired = false ∧
    (acquireLockWith
        { firstCreate := .errExist, statModTime := some 0,
          retryCreateOk := false, nowNs := 100 } 10).isErr = false := by
  have h := (lock_contention_is_normal
    { firstCreate := .errExist, statModTime := some 0,
      retryCreateOk := false, nowNs := 100 } 10 rfl).1 0 rfl (by decide)
  exact ⟨h.1, h.2.1, (h.2.2 rfl).1, (h.2.2 rfl).2⟩

/-- Claim C6: setting a key to the value it already holds leaves the
store entirely unchanged (including the dirty flag); setting an absent
or different value updates the map and marks the store dirty; hence Set
is idempotent. -/
theorem store_set_idempotent (s : Store) (k : String) (v : Int) :
    (s.data k = some v → s.set k v = s) ∧
    (¬ s.data k = some v →
      (s.set k v).data k = some v ∧ (s.set k v).dirty = true) ∧
    (s.set k v).set k v = s.set k v := by
  refine ⟨fun h => by simp [Store.set, h], fun h => by simp [Store.set, h], ?_⟩
  have h2 : (s.set k v).data k = some v := by
    by_cases h : s.data k = some v
    · simp [Store.set, h]
    · simp [Store.set, h]
  generalize s.set k v = t at h2 ⊢
  simp [Store.set, h2]

/-- Claim C6 witness: on a concrete store holding the token already,
Set is the identity; Set-Set equals Set. -/
theorem store_set_idempotent_witness :
    (Store.mk "p" (fun q => if q = "m" then some 3 else none) 0 false).set "m" 3 =
      Store.mk "p" (fun q => if q = "m" then some 3 else none) 0 false ∧
    ((Store.mk "p" (fun _ => none) 0 false).set "m" 3).set "m" 3 =
      (Store.mk "p" (fun _ => none) 0 false).set "m" 3 := by
  constructor
  · exact (store_set_idempotent
      (Store.mk "p" (fun q => if q = "m" then some 3 else none) 0 false) "m" 3).1 (by simp)
  · exact (store_set_idempotent (Store.mk "p" (fun _ => none) 0 false) "m" 3).2.2

/-- Claim C7 counterexample: content that parses with the unknown version
999 and a non-nil files map is merged into a freshly created store (the
version field is never inspected), so the store is not left empty as the
claim requires. -/
theorem store_load_version_ignored_cex :
    (((Store.new "f").load (.ok (some ⟨999, 7, some [("m", 5)]⟩))).map
        (fun s => (s.data "m", s.lastRun))) = .ok (some 5, 7) ∧
    (Store.new "f").data "m" = none := by
  constructor
  · rfl
  · rfl

/-- Claim C7 (amended): Load on a fresh store returns no error and leaves
it empty when the backing file is absent or its content fails to parse;
no parsed content is ever fatal; but the version field is ignored
entirely rather than gating the merge: loads that differ only in the
version value behave identically, merging any non-nil files map. -/
theorem store_load_tolerant (p : String) :
    ((Store.new p).load .notExist = .ok (Store.new p)) ∧
    ((Store.new p).load (.ok none) = .ok (Store.new p)) ∧
    (∀ v₁ v₂ lr files,
      (Store.new p).load (.ok (some ⟨v₁, lr, files⟩)) =
      (Store.new p).load (.ok (some ⟨v₂, lr, files⟩))) ∧
    (∀ ds, ∃ s2, (Store.new p).load (.ok ds) = .ok s2) := by
  refine ⟨?_, ?_, ?_, ?_⟩
  · unfold Store.load; split <;> rfl
  · unfold Store.load; split <;> rfl
  · intro v₁ v₂ lr files
    unfold Store.load
    split
    · rfl
    · cases files <;> rfl
  · intro ds
    match ds with
    | none =>
      exact ⟨Store.new p, by unfold Store.load; split <;> rfl⟩
    | some ds2 =>
      match h : ds2.files with
      | none =>
        refine ⟨Store.new p, ?_⟩
        unfold Store.load
        split
        · rfl
        · dsimp only
          rw [h]
      | some files =>
        by_cases hp : (Store.new p).path = ""
        · exact ⟨Store.new p, by unfold Store.load; rw [if_pos hp]⟩
        · refine ⟨⟨p, mergeFiles (fun _ => none) files, ds2.lastRun, false⟩, ?_⟩
          unfold Store.load
          rw [if_neg hp]
          dsimp only
          rw [h]
          rfl

/-- Claim C10: no store operation removes a key: Set only inserts or
overwrites, SetLastRun does not touch the map, Load only merges keys in,
and Save leaves the map unchanged, so the key set grows monotonically. -/
theorem store_keys_monotone (s : Store) (k : String)
    (h : (s.data k).isSome = true) :
    (∀ p v, (((s.set p v).data) k).isSome = true) ∧
    (∀ t, (((s.setLastRun t).data) k).isSome = true) ∧
    (∀ r s2, s.load r = .ok s2 → ((s2.data) k).isSome = true) ∧
    (∀ env s2, s.save env = .ok s2 → ((s2.data) k).isSome = true) := by
  refine ⟨?_, ?_, ?_, ?_⟩
  · intro p v
    unfold Store.set
    split
    · exact h
    · by_cases hk : k = p <;> simp [hk, h]
  · intro t
    exact h
  · intro r s2 hl
    unfold Store.load at hl
    split at hl
    · cases hl; exact h
    · cases r with
      | notExist => cases hl; exact h
      | readErr => exact Except.noConfusion hl
      | ok ds =>
        cases ds with
        | none => cases hl; exact h
        | some ds2 =>
          cases hf : ds2.files with
          | none =>
            simp only [hf] at hl
            cases hl
            exact h
          | some files =>
            simp only [hf] at hl
            cases hl
            exact mergeFiles_isSome files s.data k h
  · intro env s2 hs
    unfold Store.save at hs
    split at hs
    · cases hs; exact h
    · split at hs
      · cases hs
      · split at hs
        · cases hs
        · split at hs
          · cases hs
          · cases hs; exact h

/-- Claim C10 witness: a concrete store keeps its key under Set,
SetLastRun, Load and Save. -/
theorem store_keys_monotone_witness :
    ((((Store.mk "p" (fun q => if q = "m" then some 3 else none) 0 true).set "x" 1).data)
      "m").isSome = true ∧
    ((((Store.mk "p" (fun q => if q = "m" then some 3 else none) 0 true).setLastRun 9).data)
      "m").isSome = true := by
  have h := store_keys_monotone
    (Store.mk "p" (fun q => if q = "m" then some 3 else none) 0 true) "m" (by simp)
  exact ⟨h.1 "x" 1, h.2.1 9⟩

/-- Claim C8: RunParallel with an empty task list returns success
immediately with zero workers; with non-positive concurrency the auto
value `max (min numCPU 8) 2` lies in [2, 8] and is then clamped down to
the task count if it exceeds it; explicit concurrency within the task
count is used as is. -/
theorem runparallel_clamping (numCPU : Nat) (concurrency : Int) (numTasks : Nat) :
    (numTasks = 0 → runParallelPlan numCPU concurrency numTasks =
      { immediateSuccess := true, workers := 0 }) ∧
    (¬ numTasks = 0 →
      (runParallelPlan numCPU concurrency numTasks).immediateSuccess = false ∧
      (runParallelPlan numCPU concurrency numTasks).workers ≤ numTasks) ∧
    (¬ numTasks = 0 → concurrency ≤ 0 →
      2 ≤ max (min (numCPU : Int) 8) 2 ∧ max (min (numCPU : Int) 8) 2 ≤ 8 ∧
      (runParallelPlan numCPU concurrency numTasks).workers =
        (if max (min (numCPU : Int) 8) 2 > (numTasks : Int) then (numTasks : Int)
         else max (min (numCPU : Int) 8) 2).toNat) ∧
    (¬ numTasks = 0 → 0 < concurrency → concurrency ≤ (numTasks : Int) →
      (runParallelPlan numCPU concurrency numTasks).workers = concurrency.toNat) := by
  have key : ∀ c : Int, (if c > (numTasks : Int) then (numTasks : Int) else c).toNat ≤ numTasks := by
    intro c
    by_cases hc : c > (numTasks : Int)
    · rw [if_pos hc]; omega
    · rw [if_neg hc]; omega
  refine ⟨fun h => by simp [runParallelPlan, h], ?_, ?_, ?_⟩
  · intro h
    unfold runParallelPlan
    rw [if_neg h]
    exact ⟨rfl, key _⟩
  · intro h hc
    unfold runParallelPlan
    rw [if_neg h]
    dsimp only
    rw [if_pos hc]
    have h8 : min (numCPU : Int) 8 ≤ 8 := min_le_right _ _
    exact ⟨le_max_right _ _, by omega, rfl⟩
  · intro h hpos hle
    unfold runParallelPlan
    rw [if_neg h]
    have hnc : ¬ concurrency ≤ 0 := by omega
    dsimp only
    rw [if_neg hnc, if_neg (by omega)]

/-- Claim C8 witness: 5 tasks, concurrency 0, 16 CPUs gives 5 workers
(auto 8 clamped to the task count); 0 tasks gives immediate success with
0 workers; concurrency 3 on 5 tasks gives 3 workers. -/
theorem runparallel_clamping_witness :
    runParallelPlan 16 0 0 = { immediateSuccess := true, workers := 0 } ∧
    (runParallelPlan 16 0 5).workers = 5 ∧
    (runParallelPlan 16 3 5).workers = 3 := by
  refine ⟨(runparallel_clamping 16 0 0).1 rfl, ?_, ?_⟩
  · have h := (runparallel_clamping 16 0 5).2.2.1 (by decide) (by decide)
    rw [h.2.2]
    decide
  · have h := (runparallel_clamping 16 3 5).2.2.2 (by decide) (by decide) (by decide)
    rw [h]
    decide

/-- Claim C3: on success the match list is sorted ascending by marker
path and each item's folder entries are sorted ascending by name; and
Scan is invariant under the raw order in which the filesystem enumerates
each directory (on trees whose directories never repeat an entry name),
so repeated scans of an unchanged tree return identical results. -/
theorem scan_deterministic_sorted :
    (∀ (fs : OracleFS) (opts : Options) (fuel : Nat) (root : String) (ms : List Match),
      Scan fs opts fuel root = .ok ms →
      (ms.map Match.readyFile).Pairwise goStrLe ∧
      ∀ m ∈ ms, (m.folderEntries.map FileEntry.name).Pairwise goStrLe) ∧
    (∀ fs fs2 opts fuel root, validFS fs → enumEquiv fs fs2 →
      Scan fs opts fuel root = Scan fs2 opts fuel root) := by
  constructor
  · intro fs opts fuel root ms h
    rcases scan_ok_shape fs opts fuel root ms h with ⟨rdys, hc, hms⟩
    subst hms
    constructor
    · rw [List.map_map, List.pairwise_map]
      haveI : IsTotal String goStrLe := ⟨goStrLe_total⟩
      haveI : IsTrans String goStrLe := ⟨goStrLe_trans⟩
      refine List.Pairwise.imp ?_ (List.sorted_insertionSort _ rdys)
      intro a b hab
      show goStrLe (buildMatch fs a).readyFile (buildMatch fs b).readyFile
      rw [buildMatch_readyFile, buildMatch_readyFile]
      exact hab
    · intro m hm
      rcases List.mem_map.mp hm with ⟨rdy, _, hb⟩
      subst hb
      rw [List.pairwise_map]
      exact buildMatch_entries_sorted fs rdy
  · exact fun fs fs2 opts fuel root hv he => Scan_congr_aux fs fs2 opts fuel root hv he

/-- Claim C3 witness: on a two-marker fixture the result is sorted by
marker path with sorted folder entries, and the scan of the same tree
enumerated in reverse raw order is identical. -/
theorem scan_deterministic_sorted_witness :
    (Scan permFSA { recursive := false, followSymlinks := false } 4 "/r" =
      .ok [{ readyFile := "/r/A.RDY", folder := "", missingFolder := true,
             folderEntries := [] },
           { readyFile := "/r/B.RDY", folder := "/r/B", missingFolder := false,
             folderEntries :=
               [{ name := "x.txt", size := 0, modTime := 0, path := "/r/B/x.txt" },
                { name := "y.txt", size := 2, modTime := 3, path := "/r/B/y.txt" }] }] ∧
      (["/r/A.RDY", "/r/B.RDY"] : List String).Pairwise goStrLe) ∧
    Scan permFSA { recursive := false, followSymlinks := false } 4 "/r" =
      Scan permFSB { recursive := false, followSymlinks := false } 4 "/r" := by
  have hval : validFS permFSA := by
    intro p l h
    simp only [permFSA] at h
    by_cases h1 : p = "/r"
    · rw [if_pos h1] at h
      cases h
      decide
    · rw [if_neg h1] at h
      by_cases h2 : p = "/r/B"
      · rw [if_pos h2] at h
        cases h
        decide
      · rw [if_neg h2] at h
        exact Option.noConfusion h
  have hequiv : enumEquiv permFSA permFSB := by
    refine ⟨fun p => rfl, fun p => rfl, ?_⟩
    intro p
    by_cases h1 : p = "/r"
    · subst h1
      exact Or.inr ⟨_, _, rfl, rfl, by decide⟩
    · by_cases h2 : p = "/r/B"
      · subst h2
        exact Or.inr ⟨_, _, rfl, rfl, by decide⟩
      · refine Or.inl ⟨?_, ?_⟩
        · simp only [permFSA]
          rw [if_neg h1, if_neg h2]
        · simp only [permFSB]
          rw [if_neg h1, if_neg h2]
  have hscan : Scan permFSA { recursive := false, followSymlinks := false } 4 "/r" =
      .ok [{ readyFile := "/r/A.RDY", folder := "", missingFolder := true,
             folderEntries := [] },
           { readyFile := "/r/B.RDY", folder := "/r/B", missingFolder := false,
             folderEntries :=
               [{ name := "x.txt", size := 0, modTime := 0, path := "/r/B/x.txt" },
                { name := "y.txt", size := 2, modTime := 3, path := "/r/B/y.txt" }] }] := by
    rfl
  have hsorted := (scan_deterministic_sorted.1 permFSA
    { recursive := false, followSymlinks := false } 4 "/r" _ hscan).1
  exact ⟨⟨hscan, hsorted⟩, scan_deterministic_sorted.2 permFSA permFSB
    { recursive := false, followSymlinks := false } 4 "/r" hval hequiv⟩

/-- Claim C9: a marker whose entire base name is the suffix itself (its
ASCII-uppercased base name is ".RDY") strips to an empty folder name, so
its candidate folder resolves to the marker's own parent directory; when
that parent stats as a directory and its listing succeeds and contains
the marker, the item reports the parent as companion folder with
missingFolder=false and the listed entries include the marker itself. -/
theorem scan_dot_rdy_marker (fs : OracleFS) (opts : Options) (fuel : Nat)
    (root : String) (ms : List Match) (h : Scan fs opts fuel root = .ok ms)
    (m : Match) (hm : m ∈ ms)
    (hname : goToUpper (pathBase m.readyFile) = ".RDY") :
    candidateDirOf m.readyFile = pathDir m.readyFile ∧
    (∀ st l, fs.stat (pathDir m.readyFile) = some st → st.isDir = true →
      fs.rawReadDir (pathDir m.readyFile) = some l →
      pathBase m.readyFile ∈ l.map GoDirEntry.name →
      m.missingFolder = false ∧ m.folder = pathDir m.readyFile ∧
      pathBase m.readyFile ∈ m.folderEntries.map FileEntry.name) := by
  rcases scan_ok_shape fs opts fuel root ms h with ⟨rdys, hc, hms⟩
  subst hms
  rcases List.mem_map.mp hm with ⟨rdy, _, hb⟩
  subst hb
  rw [buildMatch_readyFile] at hname ⊢
  have hcd : candidateDirOf rdy = pathDir rdy := candidateDir_dot_rdy rdy hname
  refine ⟨hcd, ?_⟩
  intro st l hstat hdir hraw hmem
  have hstat2 : fs.stat (candidateDirOf rdy) = some st := by
    rw [hcd]
    exact hstat
  have hos : osReadDir fs (candidateDirOf rdy) = some (sortDirEntries l) := by
    unfold osReadDir
    rw [hcd, hraw]
    rfl
  unfold buildMatch
  dsimp only
  simp only [hstat2]
  rw [if_pos hdir]
  simp only [hos]
  refine ⟨trivial, hcd, ?_⟩
  have m1 : pathBase rdy ∈ (sortDirEntries l).map GoDirEntry.name :=
    ((List.perm_insertionSort entryLe l).map GoDirEntry.name).mem_iff.mpr hmem
  have m2 : ((sortDirEntries l).map (entryToFileEntry (candidateDirOf rdy))).map
      FileEntry.name = (sortDirEntries l).map GoDirEntry.name := by
    rw [List.map_map]
    exact List.map_congr_left (fun e _ => entryToFileEntry_name _ e)
  refine ((List.perm_insertionSort feLe _).map FileEntry.name).mem_iff.mpr ?_
  rw [m2]
  exact m1

/-- Claim C9 witness: on the fixture holding a marker literally named
".RDY", the candidate folder is the parent "/r", the item is not
missing, and its entries include the ".RDY" marker itself. -/
theorem scan_dot_rdy_marker_witness :
    candidateDirOf "/r/.RDY" = pathDir "/r/.RDY" ∧
    dotRdyMatch.missingFolder = false ∧ dotRdyMatch.folder = pathDir "/r/.RDY" ∧
    pathBase "/r/.RDY" ∈ dotRdyMatch.folderEntries.map FileEntry.name := by
  have h := scan_dot_rdy_marker dotRdyFS { recursive := false, followSymlinks := false }
    4 "/r" [dotRdyMatch] (by rfl) dotRdyMatch (by simp) (by rfl)
  have h2 := h.2 exDirInfo
    [{ name := ".RDY", isDir := false, isSymlink := false, info := some (exFileInfo 1 5) },
     { name := "other.txt", isDir := false, isSymlink := false, info := some (exFileInfo 2 6) }]
    (by rfl) rfl (by rfl) (by decide)
  exact ⟨h.1, h2.1, h2.2.1, h2.2.2⟩

/-- Claim C4: the upload task construction selects only entries that
Lstat as regular non-symlink files whose name does not end (case
insensitively) in .RDY, so no directory, symlink or marker is ever
uploaded or appears in the returned metadata, and every returned
metadata record carries the injected content digest of the file's
bytes. -/
theorem upload_only_regular_files (sha : List Nat → String) (fs : UploadFS)
    (bucket : String) (clientOk : Bool) (entries : List FileEntry) (objPre : String) :
    (∀ se ∈ selectUploadEntries fs objPre entries,
      fs.lstat se.fe.path = some se.fi ∧ se.fi.isDir = false ∧
      se.fi.isSymlink = false ∧ hasSuffixRDY se.fe.name = false) ∧
    (∀ res, uploadListedEntries sha fs bucket clientOk entries objPre = .ok res →
      ∀ uf ∈ res, ∃ se ∈ selectUploadEntries fs objPre entries, ∃ bytes,
        fs.contents se.fe.path = some bytes ∧
        uf = { name := se.fe.name, size := se.fi.size, checksum := sha bytes,
               path := se.objectName }) := by
  constructor
  · intro se hse
    have h := selectUploadEntries_spec fs objPre entries se hse
    exact ⟨h.1, h.2.1, h.2.2.1, h.2.2.2.1⟩
  · intro res h uf hm
    unfold uploadListedEntries at h
    split at h
    · cases h
    · split at h
      · cases h
      · split at h
        · cases h; simp at hm
        · dsimp only at h
          split at h
          · cases h; simp at hm
          · exact runUploadTasks_ok sha fs _ res h uf hm

/-- Claim C4 witness: on the fixture the run delivers exactly the one
regular file, and the upload theorem applied there exhibits its selected
entry and checksummed bytes. -/
theorem upload_only_regular_files_witness :
    uploadListedEntries shaW upFS "bkt" true upEntries "" =
      .ok [{ name := "data.txt", size := 3, checksum := "digest", path := "F/data.txt" }] ∧
    ∃ se ∈ selectUploadEntries upFS "" upEntries, ∃ bytes,
      upFS.contents se.fe.path = some bytes ∧
      ({ name := "data.txt", size := 3, checksum := "digest", path := "F/data.txt" }
        : UploadedFile) =
        { name := se.fe.name, size := se.fi.size, checksum := shaW bytes,
          path := se.objectName } := by
  refine ⟨by decide, ?_⟩
  exact (upload_only_regular_files shaW upFS "bkt" true upEntries "").2
    [{ name := "data.txt", size := 3, checksum := "digest", path := "F/data.txt" }]
    (by decide) _ (by decide)

end LocalFileSync
